import Mathlib

/-!
Verification of the yore library (src/yore/lib.py): a shallow embedding of
its comment grammar, scope resolution and buffer-editing functions, with
theorems checking the spec's claims against them.

Modelling conventions:
* a Python string is a `List Char` (`Line`); a file buffer is a `List Line`;
* Python whitespace tests (`str.lstrip`, `str.strip`, the regex class `\s`)
  are modelled over the ASCII whitespace characters;
* machine-level failure (uncaught `ValueError` / `RuntimeError` /
  `InvalidVersion`) is modelled by `Option`-valued functions returning
  `none`; out-of-range list indexing, which raises `IndexError` in Python,
  is modelled totally with `getD` defaults, and every theorem that depends
  on an indexed value carries explicit in-range hypotheses;
* external collaborators of the library (the `re` regex engine used by the
  `regex-replace` action, the network-fetched Python release/EOL date
  table, and today's date) are fields of an explicit `Env` record.
-/

namespace Yore

/-- Lines of text are modelled as lists of characters. -/
abbrev Line := List Char

/-- ASCII whitespace, as recognised by Python's `str.strip` and `\s`:
space, tab, newline, carriage return, vertical tab, form feed. -/
def pyIsSpace (c : Char) : Bool :=
  c = ' ' || c = '\t' || c = '\n' || c = '\r' || c = Char.ofNat 11 || c = Char.ofNat 12

/-- Embedding of `_indent`: `len(line) - len(line.lstrip())`, the number of
leading whitespace characters of a line. -/
def lineIndent (l : Line) : Nat := (l.takeWhile pyIsSpace).length

/-- A line is blank when `line.strip()` is falsy, i.e. every character is
whitespace. -/
def isBlank (l : Line) : Bool := l.all pyIsSpace

/-- Loop of `_block_size`: walks the buffer, counting lines (`size`) and the
current run of pending blank lines (`cb`), and stops before a dedent or
before a line at the reference indent that follows at least one blank. -/
def blockSizeAux (ind : Nat) : List Line → Nat → Nat → Nat
  | [], size, cb => size - cb
  | l :: rest, size, cb =>
    if isBlank l then blockSizeAux ind rest (size + 1) (cb + 1)
    else if lineIndent l < ind then size - cb
    else if lineIndent l = ind ∧ cb ≠ 0 then size - cb
    else blockSizeAux ind rest (size + 1) 0

/-- Embedding of `_block_size(buffer, start)`. Python reads
`buffer[start]` for the reference indent (raising `IndexError` when `start`
is out of range; modelled with a `getD` default) and then walks
`buffer[start:]`. -/
def blockSize (buffer : List Line) (start : Nat) : Nat :=
  blockSizeAux (lineIndent (buffer.getD start [])) (buffer.drop start) 0 0

/-- Embedding of `_scope_range(replace, buffer, start)`. The scope is kept
as the captured text of the comment (Python compares it with `==` against
the lowercase literals, case-sensitively); an unrecognised scope raises
`ValueError`, modelled as `none`. -/
def scopeRange (sc : Line) (buffer : List Line) (start : Nat) : Option (Nat × Nat) :=
  if sc = "line".data then some (start, start + 1)
  else if sc = "block".data then some (start, start + blockSize buffer start)
  else if sc = "file".data then some (0, buffer.length)
  else none

/-- Minimum of `_indent` over a list of lines, `min(_indent(line) for line
in lines)`. Python raises `ValueError` on an empty list; the model returns
0 there and the theorems using it only ever reindent non-empty lists. -/
def minIndent : List Line → Nat
  | [] => 0
  | l :: ls => ls.foldl (fun m x => min m (lineIndent x)) (lineIndent l)

/-- Embedding of `_reindent(lines, indent)`: strip the common minimum
indentation from every line and prepend `indent` spaces. -/
def reindent (lines : List Line) (ind : Nat) : List Line :=
  lines.map (fun l => List.replicate ind ' ' ++ l.drop (minIndent lines))

/-- Value of a digit string, as Python's `int` computes it on the numeric
tokens that can occur in a `lines` group. -/
def natOfDigits (d : Line) : Nat :=
  d.foldl (fun a c => a * 10 + (c.toNat - '0'.toNat)) 0

/-- Python `int(token)` on a token drawn from the character class
`[\d, -]` after splitting: it succeeds exactly on non-empty all-digit
strings and raises `ValueError` otherwise. -/
def parseNat (t : Line) : Option Nat :=
  if t ≠ [] ∧ ∀ c ∈ t, c.isDigit then some (natOfDigits t) else none

/-- Splitting a string on every occurrence of a character, as Python's
`str.split(sep)` does (so `"".split(",") = [""]` and `",".split(",") =
["", ""]`). -/
def splitOnChar (c : Char) : Line → List Line
  | [] => [[]]
  | x :: xs =>
    if x = c then [] :: splitOnChar c xs
    else
      match splitOnChar c xs with
      | [] => [[x]]
      | t :: ts => (x :: t) :: ts

/-- Python `str.strip(c)`: remove every leading and trailing occurrence of
the character. -/
def stripChar (c : Char) (s : Line) : Line :=
  ((s.dropWhile (· = c)).reverse.dropWhile (· = c)).reverse

/-- Worker for `collapseRuns`: `prev` records whether the previous kept
character was the collapsed one. -/
def collapseAux (c : Char) : Bool → Line → Line
  | _, [] => []
  | prev, x :: xs =>
    if x = c then
      if prev then collapseAux c true xs else c :: collapseAux c true xs
    else x :: collapseAux c false xs

/-- Embedding of `re.sub(",+", ",", s)` for a single character: every
maximal run of `c` becomes a single `c`. -/
def collapseRuns (c : Char) (s : Line) : Line := collapseAux c false s

/-- One token of a `lines` group as `_match_to_lines` treats it: a token
containing `-` must split into exactly two integers `a`, `b` and expands to
`range(a, b + 1)`; any other token is a single integer. `none` models the
`ValueError` Python raises on malformed tokens. -/
def parseToken (t : Line) : Option (List Nat) :=
  if '-' ∈ t then
    match splitOnChar '-' t with
    | [a, b] =>
      match parseNat a, parseNat b with
      | some x, some y => some (List.range' x (y + 1 - x))
      | _, _ => none
    | _ => none
  else (parseNat t).map (fun n => [n])

/-- Left-to-right traversal that stops at the first failing token, as the
Python loop in `_match_to_lines` does (an exception aborts the whole call). -/
def mapMO (f : α → Option β) : List α → Option (List β)
  | [] => some []
  | x :: xs =>
    match f x, mapMO f xs with
    | some y, some ys => some (y :: ys)
    | _, _ => none

/-- Embedding of `_match_to_lines` applied to the text of a non-empty
`lines` group: replace spaces by commas, strip commas from both ends,
collapse comma runs, split on commas and expand every token. -/
def matchToLines (s : Line) : Option (List Nat) :=
  let s1 := s.map (fun c => if c = ' ' then ',' else c)
  let s2 := stripChar ',' s1
  let s3 := collapseRuns ',' s2
  (mapMO parseToken (splitOnChar ',' s3)).map List.flatten

/-! ### Version comparison

`packaging.version.Version` restricted to the plain dotted-numeral releases
the claims use: a version is its list of release segments and comparison is
PEP 440 release comparison, i.e. lexicographic after padding the shorter
tuple with zeros (so `1 == 1.0 < 1.1`). -/

/-- Pad a release tuple with zeros up to length `n`. -/
def padZeros (a : List Nat) (n : Nat) : List Nat := a ++ List.replicate (n - a.length) 0

/-- Lexicographic comparison of two release tuples of equal length. -/
def lexLe : List Nat → List Nat → Bool
  | [], _ => true
  | _ :: _, [] => true
  | x :: xs, y :: ys => if x < y then true else if y < x then false else lexLe xs ys

/-- PEP 440 comparison of release tuples: `releaseLe a b` means
`Version(a) <= Version(b)`. -/
def releaseLe (a b : List Nat) : Bool :=
  lexLe (padZeros a (max a.length b.length)) (padZeros b (max a.length b.length))

/-- Parse a plain dotted-numeral release string into its segments;
`none` models `InvalidVersion`. -/
def parseRelease (s : Line) : Option (List Nat) := mapMO parseNat (splitOnChar '.' s)

/-! ### The parsed comment and the buffer editor -/

/-- Embedding of the `YoreComment` dataclass, with the fields the editor
uses (`file` and `raw` are omitted: they carry no behaviour in the edits the
claims are about). Scope-valued fields keep the captured text of the match
(Python compares them with `==` against lowercase literals). -/
structure YoreComment where
  lineno : Nat
  kind : Line
  version : Line
  remove : Option Line := none
  replace : Option Line := none
  line : Option Nat := none
  lines : Option (List Nat) := none
  string : Option Line := none
  regex : Bool := false
  pattern1 : Option Line := none
  pattern2 : Option Line := none
  within : Option Line := none
deriving DecidableEq

/-- Lowercased kind, as `self.kind.lower()` in the `is_bump`/`is_eol`/
`is_bol` properties. -/
def kindLower (c : YoreComment) : Line := c.kind.map Char.toLower

/-- Inputs of the trigger evaluation that the library receives from
outside: today's date and the release/EOL date table (dates as day
numbers), the caller-supplied next version and lead times, and the `re`
engine used by `regex-replace` (`regexSub pat repl line` stands for
`re.compile(pat).sub(repl, line)`). -/
structure Env where
  today : Int
  bolDate : Line → Int := fun _ => 0
  eolDate : Line → Int := fun _ => 0
  bump : Option Line := none
  eolWithin : Option Int := none
  bolWithin : Option Int := none
  regexSub : Line → Line → Line → Line := fun _ _ l => l

/-- Embedding of `_within(delta, of)`: today is on or after `of - delta`. -/
def withinDays (delta : Int) (of : Int) (today : Int) : Bool := today ≥ of - delta

/-- Truthiness of a `timedelta | None`: `None` and `timedelta(0)` are
falsy. -/
def tdTruthy : Option Int → Bool
  | none => false
  | some d => d ≠ 0

/-- Embedding of the trigger condition of `YoreComment.fix` (lines
224-228 of lib.py), one disjunct per kind; `none` models the
`InvalidVersion` exception raised when a version string involved in a bump
comparison does not parse. The `bump` disjunct mirrors
`self.is_bump and bump and Version(bump) >= Version(self.version)`, where
an empty bump string is falsy. -/
def fixCondition (c : YoreComment) (env : Env) : Option Bool :=
  if kindLower c = "eol".data then
    some ((tdTruthy env.eolWithin && withinDays (env.eolWithin.getD 0) (env.eolDate c.version) env.today)
      || withinDays 0 (env.eolDate c.version) env.today)
  else if kindLower c = "bol".data then
    some ((tdTruthy env.bolWithin && withinDays (env.bolWithin.getD 0) (env.bolDate c.version) env.today)
      || withinDays 0 (env.bolDate c.version) env.today)
  else if kindLower c = "bump".data then
    match env.bump with
    | none => some false
    | some b =>
      if b = [] then some false
      else
        match parseRelease b, parseRelease c.version with
        | some rb, some rv => some (releaseLe rv rb)
        | _, _ => none
  else some false

/-- Does `small` occur at the start of `s`, by exact character equality
(Python `str.startswith` used implicitly by `str.replace`). -/
def litPre : Line → Line → Bool
  | [], _ => true
  | _ :: _, [] => false
  | p :: ps, c :: cs => p = c && litPre ps cs

/-- Embedding of Python's `line.replace(old, new)`: replace each
non-overlapping occurrence of `old`, left to right; with an empty `old`,
Python inserts `new` before every character and at the end. -/
def strReplace (s old new : Line) : Line :=
  if old = [] then
    match s with
    | [] => new
    | c :: rest => new ++ c :: strReplace rest [] new
  else
    match s with
    | [] => []
    | c :: rest =>
      if litPre old (c :: rest) then new ++ strReplace (rest.drop (old.length - 1)) old new
      else c :: strReplace rest old new
termination_by s.length
decreasing_by
  · simp
  · simp only [List.length_drop, List.length_cons]
    omega
  · simp

/-- Python slice `buffer[s:e]`. -/
def pySlice (l : List α) (s e : Nat) : List α := (l.take e).drop s

/-- Replacement list of the `replace` branch of `fix` (lines 242-249):
either the single buffer line `buffer[start + line - 1]`, or the buffer
lines `buffer[start + n]` for each resolved `n`, or the literal string plus
a newline; `none` models the `RuntimeError` when no target is populated.
The guards mirror Python truthiness (`line = 0`, `lines = []` and
`string = ""` are all falsy). -/
def replTarget (buf : List Line) (start : Nat) (c : YoreComment) : Option (List Line) :=
  if c.line.getD 0 ≠ 0 then some [buf.getD (start + c.line.getD 0 - 1) []]
  else if c.lines.getD [] ≠ [] then some ((c.lines.getD []).map (fun n => buf.getD (start + n) []))
  else
    match c.string with
    | some str => if str ≠ [] then some [str ++ ['\n']] else none
    | none => none

/-- Embedding of `YoreComment.fix` on an explicit buffer (lines 220-269):
evaluate the trigger; when it does not hold return the buffer unchanged
with `False`; when it holds delete the comment line at `lineno - 1`,
resolve the action's scope against the shortened buffer and apply the
`remove`/`replace`/substitute-within edit (Python's `del buffer[s:e]` and
`buffer[s:e] = repl` are the `take`/`drop` splices). The `file.unlink()`
side effect of `remove file` and the write-back are outside the buffer and
are modelled by `fixFile`. -/
def applyFix (buffer : List Line) (c : YoreComment) (env : Env) : Option (List Line × Bool) :=
  match fixCondition c env with
  | none => none
  | some false => some (buffer, false)
  | some true =>
    let start := c.lineno - 1
    let buf := buffer.eraseIdx start
    match c.remove with
    | some sc =>
      match scopeRange sc buf start with
      | none => none
      | some (s, e) => some (buf.take s ++ buf.drop e, true)
    | none =>
      match c.replace with
      | some sc =>
        match scopeRange sc buf start with
        | none => none
        | some (s, e) =>
          match replTarget buf s c with
          | none => none
          | some repl =>
            some (buf.take s ++ reindent repl (lineIndent (buf.getD s [])) ++ buf.drop e, true)
      | none =>
        match c.within with
        | some sc =>
          match scopeRange sc buf start with
          | none => none
          | some (s, e) =>
            match c.pattern1, c.pattern2 with
            | some p1, some p2 =>
              let repl := (pySlice buf s e).map
                (fun l => if c.regex then env.regexSub p1 p2 l else strReplace l p1 p2)
              some (buf.take s ++ reindent repl (lineIndent (buf.getD s [])) ++ buf.drop e, true)
            | _, _ => none
        | none => some (buf, true)

/-- Scope of the action the `if remove / elif replace / elif within` chain
of `fix` dispatches on. -/
def activeScope (c : YoreComment) : Option Line :=
  match c.remove with
  | some sc => some sc
  | none =>
    match c.replace with
    | some sc => some sc
    | none => c.within

/-- Embedding of `fix` in file mode (no buffer supplied): the buffer is
read from the file; after a mutation the file is unlinked when the action
was `remove file`, and otherwise the buffer is written back only when it is
non-empty (`if write and buffer`). The result pairs the file's new on-disk
state (`none` = deleted) with the returned flag. -/
def fixFile (disk : List Line) (c : YoreComment) (env : Env) : Option (Option (List Line) × Bool) :=
  match applyFix disk c env with
  | none => none
  | some (buf, fixed) =>
    if fixed then
      if c.remove = some "file".data then some (none, true)
      else if buf ≠ [] then some (some buf, true)
      else some (some disk, true)
    else some (some disk, false)

/-! ### The directive parser

Hand-compilation of `COMMENT_PATTERN` (a `re.VERBOSE | re.IGNORECASE`
pattern matched with `re.match` against one line). In verbose mode the
unescaped whitespace of the pattern source is ignored, so the literal
separators are the escaped single spaces: the pattern is
`^\s*\# {prefix}: (bump|eol) ([^:]+): (remove (block|file|line) | replace
(block|file|line) with (line \d+ | lines [\d, -]+ | backtick .+ backtick) |
(regex-)? replace backtick .+ backtick with backtick .* backtick within
(block|file|line)) \.? .* $` with single-space separators. Alternations
are tried left to right; the greedy backtracking of `.+`/`.*` before a
closing backtick is modelled by trying every split at a backtick, longest
captured text first. -/

/-- The backtick character. -/
def btick : Char := Char.ofNat 96

/-- Case-insensitive character equality, as `re.IGNORECASE` compares. -/
def ciEq (a b : Char) : Bool := a.toLower = b.toLower

/-- Consume a literal pattern case-insensitively, returning the rest of
the input. -/
def eatCI : Line → Line → Option Line
  | [], s => some s
  | _ :: _, [] => none
  | p :: ps, c :: cs => if ciEq p c then eatCI ps cs else none

/-- Consume one exact character. -/
def eatChar (ch : Char) : Line → Option Line
  | [] => none
  | c :: cs => if c = ch then some cs else none

/-- Consume a keyword case-insensitively and capture the matched original
text (named groups keep the input's own characters). -/
def eatKw (kw : Line) (s : Line) : Option (Line × Line) :=
  match eatCI kw s with
  | some rest => some (s.take kw.length, rest)
  | none => none

/-- The `(block|file|line)` alternation, tried in the pattern's order. -/
def eatScope (s : Line) : Option (Line × Line) :=
  match eatKw "block".data s with
  | some r => some r
  | none =>
    match eatKw "file".data s with
    | some r => some r
    | none => eatKw "line".data s

/-- The `(?P<version>[^:]+):` step: the version is the non-empty run of
characters up to the first colon, which must exist. -/
def eatVersion (s : Line) : Option (Line × Line) :=
  let v := s.takeWhile (· ≠ ':')
  if v = [] then none
  else
    match s.drop v.length with
    | ':' :: rest => some (v, rest)
    | _ => none

/-- True when the string has no newline; `.` never matches a newline. -/
def noLF (s : Line) : Bool := s.all (· ≠ '\n')

/-- The trailing `\.?.*$` of the pattern: it accepts any remainder without
a newline, allowing one final newline (`$` also matches just before a
newline that ends the string). -/
def tailOk (s : Line) : Bool :=
  noLF (if s.getLast? = some '\n' then s.dropLast else s)

/-- Every way to read `s` as `content ++ [c] ++ rest`, shortest `content`
first. -/
def splitsAt (c : Char) : Line → List (Line × Line)
  | [] => []
  | x :: xs =>
    (if x = c then [(([] : Line), xs)] else []) ++
      (splitsAt c xs).map (fun p => (x :: p.1, p.2))

/-- The named groups of the action part of the pattern (everything after
`<version>: `), as `_match_to_comment` reads them. -/
structure BodyGroups where
  remove : Option Line := none
  replace : Option Line := none
  line : Option Nat := none
  lines : Option (List Nat) := none
  string : Option Line := none
  regex : Bool := false
  pattern1 : Option Line := none
  pattern2 : Option Line := none
  within : Option Line := none
deriving DecidableEq

/-- First alternative of the action: `remove (block|file|line)`. -/
def parseBodyRemove (s : Line) : Option BodyGroups :=
  match eatCI "remove".data s with
  | none => none
  | some s1 =>
    match eatChar ' ' s1 with
    | none => none
    | some s2 =>
      match eatScope s2 with
      | none => none
      | some (sc, rest) => if tailOk rest then some { remove := some sc } else none

/-- Target alternation of the second alternative: `line <int>`,
`lines <list>` or a backticked literal, tried in the pattern's order. The
`line` group goes through `int` (`_match_to_line`) and the `lines` group
through `_match_to_lines` (whose `ValueError` on a separator-only group is
modelled as an absent `lines` field). -/
def parseReplTargetGroups (sc : Line) (s : Line) : Option BodyGroups :=
  match
    ((match eatCI "line".data s with
     | none => none
     | some s1 =>
       match eatChar ' ' s1 with
       | none => none
       | some s2 =>
         let ds := s2.takeWhile Char.isDigit
         if ds ≠ [] ∧ tailOk (s2.drop ds.length) then
           some { replace := some sc, line := some (natOfDigits ds) : BodyGroups }
         else none) : Option BodyGroups)
  with
  | some g => some g
  | none =>
    match
      ((match eatCI "lines".data s with
       | none => none
       | some s1 =>
         match eatChar ' ' s1 with
         | none => none
         | some s2 =>
           let run := s2.takeWhile (fun c => c.isDigit || c = ',' || c = ' ' || c = '-')
           if run ≠ [] ∧ tailOk (s2.drop run.length) then
             some { replace := some sc, lines := matchToLines run : BodyGroups }
           else none) : Option BodyGroups)
    with
    | some g => some g
    | none =>
      match eatChar btick s with
      | none => none
      | some s1 =>
        ((splitsAt btick s1).reverse).findSome? fun (p : Line × Line) =>
          if p.1 ≠ [] ∧ noLF p.1 ∧ tailOk p.2 then
            some { replace := some sc, string := some p.1 : BodyGroups }
          else none

/-- Second alternative of the action:
`replace (block|file|line) with (line <int> | lines <list> | backtick
literal backtick)`. -/
def parseBodyReplace (s : Line) : Option BodyGroups :=
  match eatCI "replace".data s with
  | none => none
  | some s1 =>
    match eatChar ' ' s1 with
    | none => none
    | some s2 =>
      match eatScope s2 with
      | none => none
      | some (sc, s3) =>
        match eatChar ' ' s3 with
        | none => none
        | some s4 =>
          match eatCI "with".data s4 with
          | none => none
          | some s5 =>
            match eatChar ' ' s5 with
            | none => none
            | some s6 => parseReplTargetGroups sc s6

/-- Trailer of the third alternative after the optional `regex-`:
`replace backtick <pattern1> backtick with backtick <pattern2> backtick
within (block|file|line)`, with the greedy backtracking of both captures. -/
def parseSubAfter (isRegex : Bool) (s : Line) : Option BodyGroups :=
  match eatCI "replace".data s with
  | none => none
  | some s1 =>
    match eatChar ' ' s1 with
    | none => none
    | some s2 =>
      match eatChar btick s2 with
      | none => none
      | some s3 =>
        ((splitsAt btick s3).reverse).findSome? fun (p1 : Line × Line) =>
          if p1.1 = [] || !noLF p1.1 then none
          else
            match eatChar ' ' p1.2 with
            | none => none
            | some r2 =>
              match eatCI "with".data r2 with
              | none => none
              | some r3 =>
                match eatChar ' ' r3 with
                | none => none
                | some r4 =>
                  match eatChar btick r4 with
                  | none => none
                  | some r5 =>
                    ((splitsAt btick r5).reverse).findSome? fun (p2 : Line × Line) =>
                      if !noLF p2.1 then none
                      else
                        match eatChar ' ' p2.2 with
                        | none => none
                        | some r6 =>
                          match eatCI "within".data r6 with
                          | none => none
                          | some r7 =>
                            match eatChar ' ' r7 with
                            | none => none
                            | some r8 =>
                              match eatScope r8 with
                              | none => none
                              | some (sc, r9) =>
                                if tailOk r9 then
                                  some { regex := isRegex, pattern1 := some p1.1,
                                         pattern2 := some p2.1, within := some sc }
                                else none

/-- Third alternative of the action, with the greedy optional `(regex-)?`
group: matching with the group is tried before matching without it. -/
def parseBodySub (s : Line) : Option BodyGroups :=
  match eatCI "regex-".data s with
  | some s1 =>
    match parseSubAfter true s1 with
    | some g => some g
    | none => parseSubAfter false s
  | none => parseSubAfter false s

/-- The action alternation, in the pattern's order. -/
def parseBody (s : Line) : Option BodyGroups :=
  match parseBodyRemove s with
  | some g => some g
  | none =>
    match parseBodyReplace s with
    | some g => some g
    | none => parseBodySub s

/-- Tail of the pattern after the kind has been captured: a space, the
version up to a colon, `: `, and the action, assembling the comment with
`_match_to_comment`'s field reads. -/
def parseAfterKind (lineno : Nat) (kd : Line) (s6 : Line) : Option YoreComment :=
  match eatChar ' ' s6 with
  | none => none
  | some s7 =>
    match eatVersion s7 with
    | none => none
    | some (ver, s8) =>
      match eatChar ' ' s8 with
      | none => none
      | some s9 =>
        match parseBody s9 with
        | none => none
        | some g =>
          some { lineno := lineno, kind := kd, version := ver,
                 remove := g.remove, replace := g.replace, line := g.line,
                 lines := g.lines, string := g.string, regex := g.regex,
                 pattern1 := g.pattern1, pattern2 := g.pattern2,
                 within := g.within }

/-- Embedding of matching one line against `COMMENT_PATTERN` and building
the comment with `_match_to_comment`: leading whitespace, then `# `, the
prefix (matched case-insensitively, as `re.IGNORECASE` applies to the
formatted-in prefix as well), `: `, the kind alternation `(bump|eol)`, and
the tail. Returns `none` when the line does not match. -/
def parseComment (pfx : Line) (lineno : Nat) (line : Line) : Option YoreComment :=
  let s0 := line.dropWhile pyIsSpace
  match eatChar '#' s0 with
  | none => none
  | some s1 =>
    match eatChar ' ' s1 with
    | none => none
    | some s2 =>
      match eatCI pfx s2 with
      | none => none
      | some s3 =>
        match eatChar ':' s3 with
        | none => none
        | some s4 =>
          match eatChar ' ' s4 with
          | none => none
          | some s5 =>
            match
              (match eatKw "bump".data s5 with
               | some r => some r
               | none => eatKw "eol".data s5)
            with
            | none => none
            | some (kd, s6) => parseAfterKind lineno kd s6

/-- Embedding of `yield_buffer_comments`: number the buffer's lines from 1
and collect the comments of the lines that match. -/
def bufferComments (pfx : Line) (lines : List Line) : List YoreComment :=
  lines.enum.filterMap (fun p => parseComment pfx (p.1 + 1) p.2)

/-! ### Lemmas about block-size resolution -/

/-- Non-blank lines indented at least as much as the reference are walked
over without stopping, as long as no blank is pending. -/
theorem blockSizeAux_append_nonblank (ind : Nat) :
    ∀ (pre rest : List Line) (size : Nat),
      (∀ l ∈ pre, isBlank l = false ∧ ind ≤ lineIndent l) →
      blockSizeAux ind (pre ++ rest) size 0 = blockSizeAux ind rest (size + pre.length) 0 := by
  intro pre
  induction pre with
  | nil => intro rest size _; simp
  | cons l pre ih =>
    intro rest size h
    have hl := h l (by simp)
    have hrest : ∀ x ∈ pre, isBlank x = false ∧ ind ≤ lineIndent x := by
      intro x hx; exact h x (by simp [hx])
    simp only [List.cons_append, blockSizeAux, hl.1, Bool.false_eq_true, if_false]
    rw [if_neg (by omega), if_neg (by simp), List.append_eq, ih rest (size + 1) hrest]
    congr 1
    simp [List.length_cons]; omega

/-- Blank lines are walked over, incrementing the pending-blank counter. -/
theorem blockSizeAux_append_blank (ind : Nat) :
    ∀ (bl rest : List Line) (size cb : Nat),
      (∀ l ∈ bl, isBlank l = true) →
      blockSizeAux ind (bl ++ rest) size cb
        = blockSizeAux ind rest (size + bl.length) (cb + bl.length) := by
  intro bl
  induction bl with
  | nil => intro rest size cb _; simp
  | cons l bl ih =>
    intro rest size cb h
    have hl := h l (by simp)
    simp only [List.cons_append, blockSizeAux, hl, if_true]
    rw [List.append_eq, ih rest (size + 1) (cb + 1) (fun x hx => h x (by simp [hx]))]
    congr 1 <;> (simp [List.length_cons]; omega)

/-- Invariant of the walk: the returned size either discards every line
seen since the last reset (`size - cb`) or extends the already-committed
count by `k` further lines, the `k`-th of which is not blank. -/
theorem blockSizeAux_last_nonblank :
    ∀ (rest : List Line) (ind size cb : Nat),
      blockSizeAux ind rest size cb = size - cb ∨
      ∃ k, 1 ≤ k ∧ blockSizeAux ind rest size cb = size + k ∧
        ∃ l, rest.get? (k - 1) = some l ∧ isBlank l = false := by
  intro rest
  induction rest with
  | nil => intro ind size cb; left; simp [blockSizeAux]
  | cons l rest ih =>
    intro ind size cb
    by_cases hb : isBlank l
    · simp only [blockSizeAux, hb, if_true]
      rcases ih ind (size + 1) (cb + 1) with h | ⟨k, hk1, hk2, x, hx, hxb⟩
      · left; rw [h]; omega
      · right
        refine ⟨k + 1, by omega, by rw [hk2]; omega, x, ?_, hxb⟩
        have : k + 1 - 1 = (k - 1) + 1 := by omega
        rw [this, List.get?_cons_succ]
        exact hx
    · simp only [blockSizeAux, hb, Bool.false_eq_true, if_false]
      by_cases h1 : lineIndent l < ind
      · left; simp [h1]
      · rw [if_neg h1]
        by_cases h2 : lineIndent l = ind ∧ cb ≠ 0
        · left; simp [h2]
        · rw [if_neg h2]
          rcases ih ind (size + 1) 0 with h | ⟨k, hk1, hk2, x, hx, hxb⟩
          · right
            refine ⟨1, le_refl 1, by rw [h]; omega, l, ?_, by simpa using hb⟩
            simp
          · right
            refine ⟨k + 1, by omega, by rw [hk2]; omega, x, ?_, hxb⟩
            have : k + 1 - 1 = (k - 1) + 1 := by omega
            rw [this, List.get?_cons_succ]
            exact hx

/-- C3: block-scope resolution (i) ends the block just before a run of
blank lines that is followed by a non-blank line indented exactly like the
block's first line, (ii) walks past blank lines that are followed by
deeper-indented content, counting them inside the block, and (iii) never
returns a size whose last counted line is blank. -/
theorem C3_block_boundaries :
    (∀ (p0 : Line) (pre blanks rest : List Line) (term : Line),
      (∀ l ∈ p0 :: pre, isBlank l = false ∧ lineIndent p0 ≤ lineIndent l) →
      blanks ≠ [] → (∀ l ∈ blanks, isBlank l = true) →
      isBlank term = false → lineIndent term = lineIndent p0 →
      blockSize ((p0 :: pre) ++ blanks ++ term :: rest) 0 = (p0 :: pre).length)
    ∧ (∀ (p0 : Line) (pre blanks : List Line) (deeper : Line),
      (∀ l ∈ p0 :: pre, isBlank l = false ∧ lineIndent p0 ≤ lineIndent l) →
      blanks ≠ [] → (∀ l ∈ blanks, isBlank l = true) →
      isBlank deeper = false → lineIndent p0 < lineIndent deeper →
      blockSize ((p0 :: pre) ++ blanks ++ [deeper]) 0 = pre.length + blanks.length + 2)
    ∧ (∀ (buffer : List Line) (start : Nat), 0 < blockSize buffer start →
      ∃ l, (buffer.drop start).get? (blockSize buffer start - 1) = some l
        ∧ isBlank l = false) := by
  refine ⟨?_, ?_, ?_⟩
  · intro p0 pre blanks rest term hpre hbne hbl hterm hind
    have h0 : ((p0 :: pre) ++ blanks ++ term :: rest).getD 0 [] = p0 := rfl
    rw [blockSize, h0, List.drop_zero, List.append_assoc,
      blockSizeAux_append_nonblank (lineIndent p0) (p0 :: pre) _ 0 hpre,
      blockSizeAux_append_blank (lineIndent p0) blanks _ _ _ hbl]
    have hblen : blanks.length ≠ 0 := by
      simpa [List.length_eq_zero] using hbne
    simp only [blockSizeAux, hterm, Bool.false_eq_true, if_false, hind]
    rw [if_neg (by omega), if_pos ⟨trivial, by omega⟩]
    omega
  · intro p0 pre blanks deeper hpre hbne hbl hdeep hind
    have h0 : ((p0 :: pre) ++ blanks ++ [deeper]).getD 0 [] = p0 := rfl
    rw [blockSize, h0, List.drop_zero, List.append_assoc,
      blockSizeAux_append_nonblank (lineIndent p0) (p0 :: pre) _ 0 hpre,
      blockSizeAux_append_blank (lineIndent p0) blanks _ _ _ hbl]
    simp only [blockSizeAux, hdeep, Bool.false_eq_true, if_false]
    rw [if_neg (by omega), if_neg (by omega)]
    have hc : (p0 :: pre).length = pre.length + 1 := List.length_cons p0 pre
    omega
  · intro buffer start hpos
    rw [blockSize] at hpos ⊢
    rcases blockSizeAux_last_nonblank (buffer.drop start)
        (lineIndent (buffer.getD start [])) 0 0 with h | ⟨k, hk1, hk2, l, hl, hlb⟩
    · omega
    · exact ⟨l, by rw [hk2]; simpa using hl, hlb⟩

/-! ### Claim-side description of line-list tokens (C4)

The claim describes a `lines` group as a list of tokens — single numbers
and `a-b` ranges — separated by arbitrary repetitions of spaces and
commas. The following definitions state that description independently of
the parsing pipeline: a token's enumeration (`tokenSem`), its textual form
(`tokenText`) and a rendering of a token list with arbitrary separator
runs. -/

/-- A token of a line list: a single number or an `a-b` range, each number
kept as its digit string. -/
inductive LineToken where
  | single : Line → LineToken
  | srange : Line → Line → LineToken
deriving DecidableEq

/-- Textual form of a token. -/
def tokenText : LineToken → Line
  | .single d => d
  | .srange a b => a ++ '-' :: b

/-- Manual enumeration of one token: a single number denotes itself and
`a-b` denotes `a, a+1, ..., b`. -/
def tokenSem : LineToken → List Nat
  | .single d => [natOfDigits d]
  | .srange a b => List.range' (natOfDigits a) (natOfDigits b + 1 - natOfDigits a)

/-- Well-formedness of a token: its numbers are non-empty digit strings. -/
def wfToken : LineToken → Prop
  | .single d => d ≠ [] ∧ ∀ c ∈ d, c.isDigit
  | .srange a b => (a ≠ [] ∧ ∀ c ∈ a, c.isDigit) ∧ (b ≠ [] ∧ ∀ c ∈ b, c.isDigit)

/-- A separator run: spaces and commas only. -/
def sepOk (s : Line) : Prop := ∀ c ∈ s, c = ' ' ∨ c = ','

instance : DecidablePred sepOk := fun s => by
  unfold sepOk
  infer_instance

instance (t : LineToken) : Decidable (wfToken t) := by
  cases t <;> (unfold wfToken; infer_instance)

/-- Rendering of the tokens after the first, each preceded by its own
separator run. -/
def renderRest : List (Line × LineToken) → Line
  | [] => []
  | p :: ps => p.1 ++ tokenText p.2 ++ renderRest ps

/-- Characters a well-formed token consists of. -/
def tokChar (c : Char) : Prop := c.isDigit = true ∨ c = '-'

theorem tokChar_ne_space {c : Char} (h : tokChar c) : c ≠ ' ' := by
  rintro rfl
  rcases h with h | h
  · exact absurd h (by decide)
  · exact absurd h (by decide)

theorem tokChar_ne_comma {c : Char} (h : tokChar c) : c ≠ ',' := by
  rintro rfl
  rcases h with h | h
  · exact absurd h (by decide)
  · exact absurd h (by decide)

theorem tokenText_ne_nil {t : LineToken} (h : wfToken t) : tokenText t ≠ [] := by
  cases t with
  | single d => exact h.1
  | srange a b => simp [tokenText]

theorem tokenText_chars {t : LineToken} (h : wfToken t) : ∀ c ∈ tokenText t, tokChar c := by
  cases t with
  | single d => exact fun c hc => Or.inl (h.2 c hc)
  | srange a b =>
    intro c hc
    rcases List.mem_append.mp hc with hc | hc
    · exact Or.inl (h.1.2 c hc)
    · rcases List.mem_cons.mp hc with rfl | hc
      · exact Or.inr rfl
      · exact Or.inl (h.2.2 c hc)

/-! Small facts about the string pipeline of `_match_to_lines`. -/

theorem map_comma_eq_self {l : Line} (h : ∀ c ∈ l, c ≠ ' ') :
    l.map (fun c => if c = ' ' then ',' else c) = l := by
  induction l with
  | nil => rfl
  | cons x xs ih =>
    simp only [List.map_cons, if_neg (h x (by simp)), List.cons.injEq, true_and]
    exact ih (fun c hc => h c (by simp [hc]))

theorem map_comma_sep {l : Line} (h : sepOk l) :
    ∀ c ∈ l.map (fun c => if c = ' ' then ',' else c), c = ',' := by
  intro c hc
  rcases List.mem_map.mp hc with ⟨x, hx, rfl⟩
  rcases h x hx with rfl | rfl
  · simp
  · simp

theorem dropWhile_append_all {p : Char → Bool} {A r : Line} (h : ∀ c ∈ A, p c = true) :
    (A ++ r).dropWhile p = r.dropWhile p := by
  induction A with
  | nil => rfl
  | cons x xs ih =>
    simp only [List.cons_append, List.dropWhile_cons, h x (by simp), if_true]
    exact ih (fun c hc => h c (by simp [hc]))

theorem dropWhile_comma_of_head {l : Line} (h : l.head? ≠ some ',') :
    l.dropWhile (· = ',') = l := by
  cases l with
  | nil => rfl
  | cons x xs =>
    have hx : x ≠ ',' := fun hc => h (by simp [hc])
    simp [List.dropWhile_cons, hx]

/-- Python `strip(",")` on a string of the shape `commas ++ middle ++
commas` where the middle is non-empty and neither starts nor ends with a
comma. -/
theorem stripChar_sandwich {A0 Aend M : Line}
    (h0 : ∀ c ∈ A0, c = ',') (hend : ∀ c ∈ Aend, c = ',')
    (hM : M ≠ []) (hh : M.head? ≠ some ',') (hl : M.getLast? ≠ some ',') :
    stripChar ',' (A0 ++ M ++ Aend) = M := by
  have hfront : (A0 ++ M ++ Aend).dropWhile (· = ',') = M ++ Aend := by
    rw [List.append_assoc,
      dropWhile_append_all (p := (· = ',')) (fun c hc => by simp [h0 c hc])]
    apply dropWhile_comma_of_head
    cases M with
    | nil => exact absurd rfl hM
    | cons m M' =>
      intro hcontra
      exact hh (by simpa using hcontra)
  rw [stripChar, hfront, List.reverse_append,
    dropWhile_append_all (p := (· = ',')) (fun c hc => by
      simp [hend c (List.mem_reverse.mp hc)]),
    dropWhile_comma_of_head (by rw [List.head?_reverse]; exact hl),
    List.reverse_reverse]

/-- Concatenated shape of the middle of a mapped line list: each pair is a
comma run followed by a token text. -/
def catPairs : List (Line × Line) → Line
  | [] => []
  | q :: qs => q.1 ++ q.2 ++ catPairs qs

/-- Normalised form of the same middle: each comma run collapsed to a
single comma. -/
def catComma : List (Line × Line) → Line
  | [] => []
  | q :: qs => ',' :: q.2 ++ catComma qs

theorem collapseAux_append_notc {c : Char} {T r : Line} (h : ∀ x ∈ T, x ≠ c) :
    collapseAux c false (T ++ r) = T ++ collapseAux c false r := by
  induction T with
  | nil => rfl
  | cons x xs ih =>
    simp only [List.cons_append, collapseAux, if_neg (h x (by simp)), List.cons.injEq, true_and]
    exact ih (fun y hy => h y (by simp [hy]))

theorem collapseAux_true_skip {c : Char} {A r : Line} (h : ∀ x ∈ A, x = c) :
    collapseAux c true (A ++ r) = collapseAux c true r := by
  induction A with
  | nil => rfl
  | cons x xs ih =>
    simp only [List.cons_append, collapseAux, if_pos (h x (by simp)), if_pos trivial]
    exact ih (fun y hy => h y (by simp [hy]))

theorem collapseAux_true_eq_false {c : Char} {r : Line} (h : r.head? ≠ some c) :
    collapseAux c true r = collapseAux c false r := by
  cases r with
  | nil => rfl
  | cons x xs =>
    have hx : x ≠ c := fun hc => h (by simp [hc])
    simp [collapseAux, hx]

theorem collapseAux_comma_run {c : Char} {A r : Line} (hA : A ≠ []) (h : ∀ x ∈ A, x = c)
    (hr : r.head? ≠ some c) :
    collapseAux c false (A ++ r) = c :: collapseAux c false r := by
  cases A with
  | nil => exact absurd rfl hA
  | cons a A' =>
    simp only [List.cons_append, collapseAux, if_pos (h a (by simp)), if_neg Bool.false_ne_true,
      List.append_eq]
    rw [collapseAux_true_skip (A := A') (fun y hy => h y (by simp [hy])),
      collapseAux_true_eq_false hr]

theorem head?_ne_of_all {T : Line} {c : Char} (h : ∀ x ∈ T, x ≠ c) : T.head? ≠ some c := by
  cases T with
  | nil => simp
  | cons x xs =>
    simpa using h x (by simp)

/-- Collapsing comma runs in `T0 ++ catPairs qs` yields `T0 ++ catComma
qs` when tokens are comma-free and non-empty and the runs are non-empty
commas. -/
theorem collapse_mid :
    ∀ (qs : List (Line × Line)) (T0 : Line), (∀ x ∈ T0, x ≠ ',') →
      (∀ q ∈ qs, q.1 ≠ [] ∧ (∀ x ∈ q.1, x = ',') ∧ q.2 ≠ [] ∧ (∀ x ∈ q.2, x ≠ ',')) →
      collapseRuns ',' (T0 ++ catPairs qs) = T0 ++ catComma qs := by
  intro qs
  induction qs with
  | nil =>
    intro T0 hT0 _
    rw [catPairs, catComma, collapseRuns, collapseAux_append_notc hT0]
    rfl
  | cons q qs ih =>
    intro T0 hT0 hqs
    obtain ⟨hA, hAc, hT, hTc⟩ := hqs q (by simp)
    have hqs' : ∀ p ∈ qs, p.1 ≠ [] ∧ (∀ x ∈ p.1, x = ',') ∧ p.2 ≠ [] ∧ ∀ x ∈ p.2, x ≠ ',' :=
      fun p hp => hqs p (by simp [hp])
    have hhead : (q.2 ++ catPairs qs).head? ≠ some ',' := by
      cases hq2 : q.2 with
      | nil => exact absurd hq2 hT
      | cons t ts =>
        have ht : t ≠ ',' := hTc t (by rw [hq2]; simp)
        simpa using ht
    rw [catPairs, catComma, collapseRuns]
    simp only [List.append_assoc]
    rw [collapseAux_append_notc hT0, collapseAux_comma_run hA hAc hhead]
    have hmid := ih q.2 hTc hqs'
    rw [collapseRuns] at hmid
    rw [hmid]
    simp

/-- Splitting a comma-free string yields one token. -/
theorem splitOnChar_no {c : Char} {T : Line} (h : ∀ x ∈ T, x ≠ c) :
    splitOnChar c T = [T] := by
  induction T with
  | nil => rfl
  | cons x xs ih =>
    rw [splitOnChar, if_neg (h x (by simp)), ih (fun y hy => h y (by simp [hy]))]

/-- Splitting peels off one comma-free token before a separator. -/
theorem splitOnChar_append {c : Char} {T r : Line} (h : ∀ x ∈ T, x ≠ c) :
    splitOnChar c (T ++ c :: r) = T :: splitOnChar c r := by
  induction T with
  | nil => simp [splitOnChar]
  | cons x xs ih =>
    rw [List.cons_append, splitOnChar, if_neg (h x (by simp)),
      ih (fun y hy => h y (by simp [hy]))]

/-- Splitting the normalised middle recovers the token texts. -/
theorem split_mid :
    ∀ (qs : List (Line × Line)) (T0 : Line), (∀ x ∈ T0, x ≠ ',') →
      (∀ q ∈ qs, ∀ x ∈ q.2, x ≠ ',') →
      splitOnChar ',' (T0 ++ catComma qs) = T0 :: qs.map Prod.snd := by
  intro qs
  induction qs with
  | nil =>
    intro T0 hT0 _
    rw [catComma, List.append_nil, splitOnChar_no hT0]
    rfl
  | cons q qs ih =>
    intro T0 hT0 hqs
    rw [catComma]
    have hshape : T0 ++ ((',' :: q.2) ++ catComma qs) = T0 ++ ',' :: (q.2 ++ catComma qs) := by
      simp
    rw [hshape, splitOnChar_append hT0,
      ih q.2 (hqs q (by simp)) (fun p hp => hqs p (by simp [hp]))]
    rfl

theorem parseNat_digits {d : Line} (h1 : d ≠ []) (h2 : ∀ c ∈ d, c.isDigit) :
    parseNat d = some (natOfDigits d) := by
  rw [parseNat, if_pos ⟨h1, h2⟩]

/-- The `_match_to_lines` treatment of one well-formed token agrees with
the claim's manual enumeration. -/
theorem parseToken_wf {t : LineToken} (h : wfToken t) :
    parseToken (tokenText t) = some (tokenSem t) := by
  cases t with
  | single d =>
    have hno : '-' ∉ d := fun hc => absurd (h.2 '-' hc) (by decide)
    rw [tokenText, parseToken, if_neg hno, parseNat_digits h.1 h.2]
    rfl
  | srange a b =>
    obtain ⟨⟨ha1, ha2⟩, hb1, hb2⟩ := h
    have hna : ∀ x ∈ a, x ≠ '-' := fun x hx hc =>
      absurd (ha2 x hx) (by rw [hc]; decide)
    have hnb : ∀ x ∈ b, x ≠ '-' := fun x hx hc =>
      absurd (hb2 x hx) (by rw [hc]; decide)
    have hmem : '-' ∈ a ++ '-' :: b := List.mem_append.mpr (Or.inr (by simp))
    rw [tokenText, parseToken, if_pos hmem, splitOnChar_append hna, splitOnChar_no hnb]
    simp only [parseNat_digits ha1 ha2, parseNat_digits hb1 hb2]
    rfl

theorem mapMO_map {f : β → Option γ} {g : α → β} :
    ∀ l : List α, mapMO f (l.map g) = mapMO (fun x => f (g x)) l := by
  intro l
  induction l with
  | nil => rfl
  | cons x xs ih => rw [List.map_cons, mapMO, mapMO, ih]

theorem mapMO_eq_map {f : α → Option β} {g : α → β} :
    ∀ l : List α, (∀ x ∈ l, f x = some (g x)) → mapMO f l = some (l.map g) := by
  intro l
  induction l with
  | nil => intro _; rfl
  | cons x xs ih =>
    intro h
    rw [mapMO, h x (by simp), ih (fun y hy => h y (by simp [hy])), List.map_cons]

/-- Mapping space-to-comma over the rendered rest yields the
comma-run/token pair shape. -/
theorem map_renderRest :
    ∀ ps : List (Line × LineToken), (∀ p ∈ ps, wfToken p.2) →
      (renderRest ps).map (fun c => if c = ' ' then ',' else c)
        = catPairs (ps.map fun p =>
            (p.1.map (fun c => if c = ' ' then ',' else c), tokenText p.2)) := by
  intro ps
  induction ps with
  | nil => intro _; rfl
  | cons p ps ih =>
    intro h
    have hw := h p (by simp)
    rw [renderRest, List.map_cons, catPairs]
    simp only [List.map_append]
    rw [map_comma_eq_self (fun c hc => tokChar_ne_space (tokenText_chars hw c hc)),
      ih (fun q hq => h q (by simp [hq]))]

/-- The last character of `T0 ++ catPairs qs` is a token character, hence
not a comma. -/
theorem getLast_mid_ne :
    ∀ (qs : List (Line × Line)) (T0 : Line), T0 ≠ [] → (∀ x ∈ T0, x ≠ ',') →
      (∀ q ∈ qs, q.2 ≠ [] ∧ ∀ x ∈ q.2, x ≠ ',') →
      (T0 ++ catPairs qs).getLast? ≠ some ',' := by
  intro qs
  induction qs with
  | nil =>
    intro T0 hne hT0 _
    rw [catPairs, List.append_nil]
    intro hc
    rcases List.mem_getLast?_eq_getLast (by rw [hc]; rfl) with ⟨h', heq⟩
    exact hT0 ',' (by rw [heq]; exact List.getLast_mem h') rfl
  | cons q qs ih =>
    intro T0 hne hT0 hqs
    obtain ⟨hq2, hq2c⟩ := hqs q (by simp)
    have htail := ih q.2 hq2 hq2c (fun p hp => hqs p (by simp [hp]))
    rw [catPairs]
    have hsplit : T0 ++ (q.1 ++ q.2 ++ catPairs qs) = (T0 ++ q.1) ++ (q.2 ++ catPairs qs) := by
      simp [List.append_assoc]
    rw [hsplit, List.getLast?_append_of_ne_nil _ (by
      intro hc
      exact hq2 (List.append_eq_nil.mp hc).1)]
    exact htail

/-- C4: line-list expansion enumerates each token in first-seen order.
For every token list — a first token and further tokens each preceded by a
non-empty run of spaces and commas, with optional leading and trailing
separator runs — `_match_to_lines` returns exactly the concatenation of
every token's own enumeration: a single number denotes itself and `a-b`
denotes `a..b` inclusive; duplicates are kept. -/
theorem C4_line_list_expansion :
    ∀ (s0 send : Line) (t0 : LineToken) (ps : List (Line × LineToken)),
      sepOk s0 → sepOk send → wfToken t0 →
      (∀ p ∈ ps, p.1 ≠ [] ∧ sepOk p.1 ∧ wfToken p.2) →
      matchToLines (s0 ++ tokenText t0 ++ renderRest ps ++ send)
        = some (tokenSem t0 ++ (ps.map (fun p => tokenSem p.2)).flatten) := by
  intro s0 send t0 ps h0 hend ht hps
  have hT0c : ∀ x ∈ tokenText t0, x ≠ ',' :=
    fun x hx => tokChar_ne_comma (tokenText_chars ht x hx)
  have hT0s : ∀ x ∈ tokenText t0, x ≠ ' ' :=
    fun x hx => tokChar_ne_space (tokenText_chars ht x hx)
  have hT0ne := tokenText_ne_nil ht
  set qs : List (Line × Line) :=
    ps.map (fun p => (p.1.map (fun c => if c = ' ' then ',' else c), tokenText p.2)) with hqsdef
  have hq1 : ∀ q ∈ qs, q.1 ≠ [] := by
    intro q hq
    rcases List.mem_map.mp hq with ⟨p, hp, rfl⟩
    simpa [List.map_eq_nil_iff] using (hps p hp).1
  have hq1c : ∀ q ∈ qs, ∀ x ∈ q.1, x = ',' := by
    intro q hq
    rcases List.mem_map.mp hq with ⟨p, hp, rfl⟩
    exact map_comma_sep (hps p hp).2.1
  have hq2 : ∀ q ∈ qs, q.2 ≠ [] := by
    intro q hq
    rcases List.mem_map.mp hq with ⟨p, hp, rfl⟩
    exact tokenText_ne_nil (hps p hp).2.2
  have hq2c : ∀ q ∈ qs, ∀ x ∈ q.2, x ≠ ',' := by
    intro q hq
    rcases List.mem_map.mp hq with ⟨p, hp, rfl⟩
    exact fun x hx => tokChar_ne_comma (tokenText_chars (hps p hp).2.2 x hx)
  have hmap : (s0 ++ tokenText t0 ++ renderRest ps ++ send).map
        (fun c => if c = ' ' then ',' else c)
      = (s0.map (fun c => if c = ' ' then ',' else c))
          ++ (tokenText t0 ++ catPairs qs)
          ++ (send.map (fun c => if c = ' ' then ',' else c)) := by
    simp only [List.map_append]
    rw [map_comma_eq_self hT0s, map_renderRest ps (fun p hp => (hps p hp).2.2)]
    simp [List.append_assoc]
  have hstrip : stripChar ','
        ((s0.map (fun c => if c = ' ' then ',' else c))
          ++ (tokenText t0 ++ catPairs qs)
          ++ (send.map (fun c => if c = ' ' then ',' else c)))
      = tokenText t0 ++ catPairs qs := by
    apply stripChar_sandwich (map_comma_sep h0) (map_comma_sep hend)
    · intro hc
      exact hT0ne (List.append_eq_nil.mp hc).1
    · cases htt : tokenText t0 with
      | nil => exact absurd htt hT0ne
      | cons t ts =>
        have : t ≠ ',' := hT0c t (by rw [htt]; simp)
        simpa using this
    · exact getLast_mid_ne qs (tokenText t0) hT0ne hT0c
        (fun q hq => ⟨hq2 q hq, hq2c q hq⟩)
  have hcollapse := collapse_mid qs (tokenText t0) hT0c
    (fun q hq => ⟨hq1 q hq, hq1c q hq, hq2 q hq, hq2c q hq⟩)
  have hsplit := split_mid qs (tokenText t0) hT0c hq2c
  have hsnd : qs.map Prod.snd = (ps.map Prod.snd).map tokenText := by
    rw [hqsdef, List.map_map, List.map_map]
    rfl
  have hmapm : mapMO parseToken (tokenText t0 :: (ps.map Prod.snd).map tokenText)
      = some (tokenSem t0 :: (ps.map Prod.snd).map tokenSem) := by
    have hlist : tokenText t0 :: (ps.map Prod.snd).map tokenText
        = (t0 :: ps.map Prod.snd).map tokenText := by rfl
    rw [hlist, mapMO_map]
    have := mapMO_eq_map (f := fun t => parseToken (tokenText t)) (g := tokenSem)
      (t0 :: ps.map Prod.snd) (by
        intro t htm
        rcases List.mem_cons.mp htm with rfl | htm
        · exact parseToken_wf ht
        · rcases List.mem_map.mp htm with ⟨p, hp, rfl⟩
          exact parseToken_wf (hps p hp).2.2)
    rw [this, List.map_cons]
  rw [matchToLines]
  simp only [hmap, hstrip, hcollapse, hsplit, hsnd, hmapm]
  rw [Option.map_some']
  rw [List.flatten_cons]
  congr 1
  congr 1
  rw [List.map_map]
  rfl

/-! ### Lemmas about the buffer editor -/

theorem get?_eraseIdx_of_lt :
    ∀ (l : List α) (n i : Nat), i < n → (l.eraseIdx n).get? i = l.get? i := by
  intro l
  induction l with
  | nil => intro n i _; rfl
  | cons x xs ih =>
    intro n i hi
    cases n with
    | zero => omega
    | succ n =>
      cases i with
      | zero => rfl
      | succ i =>
        rw [List.eraseIdx_cons_succ, List.get?_cons_succ, List.get?_cons_succ]
        exact ih n i (by omega)

theorem get?_take_append_of_lt :
    ∀ (l : List α) (r : List α) (s i : Nat), i < s → i < l.length →
      (l.take s ++ r).get? i = l.get? i := by
  intro l
  induction l with
  | nil => intro r s i _ hi; simp at hi
  | cons x xs ih =>
    intro r s i hs hi
    cases s with
    | zero => omega
    | succ s =>
      cases i with
      | zero => rfl
      | succ i =>
        rw [List.take_succ_cons, List.cons_append, List.get?_cons_succ, List.get?_cons_succ]
        exact ih r s i (by omega) (by simpa using hi)

/-- C5: when a `Replace <scope> with line N` directive fires, the resolved
range is replaced by the single buffer line at index `start + N - 1` of the
buffer without its comment line — the N-th line counted from the range's
own start — stripped of its own leading whitespace and re-indented with the
indentation of the range's first line. -/
theorem C5_replace_with_relative_line :
    ∀ (buffer : List Line) (c : YoreComment) (env : Env) (sc : Line) (N s e : Nat),
      fixCondition c env = some true →
      c.remove = none → c.replace = some sc → c.line = some N → 0 < N →
      scopeRange sc (buffer.eraseIdx (c.lineno - 1)) (c.lineno - 1) = some (s, e) →
      s < (buffer.eraseIdx (c.lineno - 1)).length →
      s + N - 1 < (buffer.eraseIdx (c.lineno - 1)).length →
      applyFix buffer c env = some (
        (buffer.eraseIdx (c.lineno - 1)).take s
          ++ [List.replicate (lineIndent ((buffer.eraseIdx (c.lineno - 1)).getD s [])) ' '
                ++ ((buffer.eraseIdx (c.lineno - 1)).getD (s + N - 1) []).drop
                     (lineIndent ((buffer.eraseIdx (c.lineno - 1)).getD (s + N - 1) []))]
          ++ (buffer.eraseIdx (c.lineno - 1)).drop e, true) := by
  intro buffer c env sc N s e hcond hrem hrep hline hN hscope _ _
  rw [applyFix, hcond]
  simp only [hrem, hrep, hscope, replTarget, hline, Option.getD_some,
    if_pos (Nat.pos_iff_ne_zero.mp hN)]
  rw [reindent]
  simp only [List.map_cons, List.map_nil]
  rfl

/-- C6: a `Remove line` directive at line 1 of a two-line buffer removes
exactly the comment line and the code line, leaving the empty buffer. -/
theorem C6_remove_line_round_trip :
    ∀ (l0 l1 : Line) (c : YoreComment) (env : Env),
      c.lineno = 1 → c.remove = some ("line".data) →
      fixCondition c env = some true →
      applyFix [l0, l1] c env = some ([], true) := by
  intro l0 l1 c env hlineno hrem hcond
  rw [applyFix, hcond]
  simp only [hrem, hlineno, scopeRange, if_pos rfl]
  rfl

/-- C7: a bump directive fires exactly when a non-empty next version is
supplied and compares at least as large as the trigger version, and never
fires when no next version is supplied. -/
theorem C7_bump_trigger :
    ∀ (c : YoreComment) (env : Env), kindLower c = "bump".data →
      ((fixCondition c env = some true ↔
        ∃ b, env.bump = some b ∧ b ≠ [] ∧
          ∃ rb rv, parseRelease b = some rb ∧ parseRelease c.version = some rv ∧
            releaseLe rv rb = true)
       ∧ (env.bump = none → fixCondition c env = some false)) := by
  intro c env hk
  rw [fixCondition, hk, if_neg (by decide), if_neg (by decide), if_pos rfl]
  constructor
  · cases hb : env.bump with
    | none => simp
    | some b =>
      dsimp only
      by_cases hbe : b = []
      · subst hbe
        simp
      · rw [if_neg hbe]
        cases hrb : parseRelease b with
        | none =>
          simp only [hrb]
          constructor
          · intro h
            cases hrv : parseRelease c.version <;> simp [hrv] at h
          · rintro ⟨b', hb', _, rb', rv', h1, _, _⟩
            cases hb'
            rw [hrb] at h1
            cases h1
        | some rb =>
          cases hrv : parseRelease c.version with
          | none => simp [hrb, hrv]
          | some rv =>
            simp only [hrb, hrv]
            constructor
            · intro h
              refine ⟨b, rfl, hbe, rb, rv, hrb, rfl, ?_⟩
              simpa using h
            · rintro ⟨b', hb', _, rb', rv', h1, h2, h3⟩
              cases hb'
              rw [hrb] at h1
              cases h1
              cases h2
              simp [h3]
  · intro hnone
    rw [hnone]

/-- C8: when the trigger condition evaluates to false, `fix` returns the
buffer unchanged together with `False`. -/
theorem C8_no_trigger_no_mutation :
    ∀ (buffer : List Line) (c : YoreComment) (env : Env),
      fixCondition c env = some false →
      applyFix buffer c env = some (buffer, false) := by
  intro buffer c env h
  rw [applyFix, h]

/-- Every mutation of `fix` splices at or after the comment's own index,
so each of its results preserves the lines strictly before it. -/
theorem frame_of_splice (buffer : List Line) (start : Nat) (r1 r2 : List Line) (i : Nat)
    (hstart : start < buffer.length) (hi : i < start) :
    ((buffer.eraseIdx start).take start ++ r1 ++ r2).get? i = buffer.get? i := by
  have hlen : i < (buffer.eraseIdx start).length := by
    rw [List.length_eraseIdx]
    simp only [hstart, if_pos]
    omega
  rw [List.append_assoc, get?_take_append_of_lt _ _ _ _ hi hlen,
    get?_eraseIdx_of_lt _ _ _ hi]

/-- C9: a directive whose action has scope `line` or `block` and whose
trigger holds only mutates buffer positions at 0-based index
`lineno - 1` and beyond: every line strictly below that index is
unchanged, so applying the directives of one buffer in descending line
order leaves the targets of earlier directives intact. -/
theorem C9_mutation_frame :
    ∀ (buffer : List Line) (c : YoreComment) (env : Env) (buf : List Line) (b : Bool),
      fixCondition c env = some true →
      (activeScope c = some "line".data ∨ activeScope c = some "block".data) →
      c.lineno - 1 < buffer.length →
      applyFix buffer c env = some (buf, b) →
      ∀ i, i < c.lineno - 1 → buf.get? i = buffer.get? i := by
  intro buffer c env buf b hcond hscope hlen happ i hi
  rw [applyFix, hcond] at happ
  dsimp only at happ
  have hscopes : ∀ sc : Line, (sc = "line".data ∨ sc = "block".data) →
      ∃ e, scopeRange sc (buffer.eraseIdx (c.lineno - 1)) (c.lineno - 1)
        = some (c.lineno - 1, e) := by
    rintro sc (rfl | rfl)
    · exact ⟨c.lineno - 1 + 1, by rw [scopeRange, if_pos rfl]⟩
    · refine ⟨c.lineno - 1 + blockSize (buffer.eraseIdx (c.lineno - 1)) (c.lineno - 1), ?_⟩
      rw [scopeRange, if_neg (by decide), if_pos rfl]
  cases hrem : c.remove with
  | some sc =>
    rw [hrem] at happ
    dsimp only at happ
    have hsc : sc = "line".data ∨ sc = "block".data := by
      rcases hscope with h | h <;>
        (rw [activeScope, hrem] at h
         dsimp only at h
         rcases Option.some.inj h with rfl)
      · exact Or.inl rfl
      · exact Or.inr rfl
    obtain ⟨e, he⟩ := hscopes sc hsc
    rw [he] at happ
    dsimp only at happ
    simp only [Option.some.injEq, Prod.mk.injEq] at happ
    rw [← happ.1]
    have := frame_of_splice buffer (c.lineno - 1)
      ((buffer.eraseIdx (c.lineno - 1)).drop e) [] i hlen hi
    simpa using this
  | none =>
    rw [hrem] at happ
    dsimp only at happ
    cases hrep : c.replace with
    | some sc =>
      rw [hrep] at happ
      dsimp only at happ
      have hsc : sc = "line".data ∨ sc = "block".data := by
        rcases hscope with h | h <;>
          (rw [activeScope, hrem, hrep] at h
           dsimp only at h
           rcases Option.some.inj h with rfl)
        · exact Or.inl rfl
        · exact Or.inr rfl
      obtain ⟨e, he⟩ := hscopes sc hsc
      rw [he] at happ
      dsimp only at happ
      cases hrt : replTarget (buffer.eraseIdx (c.lineno - 1)) (c.lineno - 1) c with
      | none => rw [hrt] at happ; cases happ
      | some repl =>
        rw [hrt] at happ
        dsimp only at happ
        simp only [Option.some.injEq, Prod.mk.injEq] at happ
        rw [← happ.1]
        exact frame_of_splice buffer (c.lineno - 1) _ _ i hlen hi
    | none =>
      rw [hrep] at happ
      dsimp only at happ
      cases hwin : c.within with
      | some sc =>
        rw [hwin] at happ
        dsimp only at happ
        have hsc : sc = "line".data ∨ sc = "block".data := by
          rcases hscope with h | h <;>
            (rw [activeScope, hrem, hrep, hwin] at h
             dsimp only at h
             rcases Option.some.inj h with rfl)
          · exact Or.inl rfl
          · exact Or.inr rfl
        obtain ⟨e, he⟩ := hscopes sc hsc
        rw [he] at happ
        dsimp only at happ
        cases hp1 : c.pattern1 with
        | none => rw [hp1] at happ; dsimp only at happ; cases happ
        | some p1 =>
          cases hp2 : c.pattern2 with
          | none => rw [hp1, hp2] at happ; dsimp only at happ; cases happ
          | some p2 =>
            rw [hp1, hp2] at happ
            dsimp only at happ
            simp only [Option.some.injEq, Prod.mk.injEq] at happ
            rw [← happ.1]
            exact frame_of_splice buffer (c.lineno - 1) _ _ i hlen hi
      | none =>
        rw [hwin] at happ
        dsimp only at happ
        simp only [Option.some.injEq, Prod.mk.injEq] at happ
        rw [← happ.1]
        exact get?_eraseIdx_of_lt _ _ _ hi

/-- C10: in file mode, a fix whose mutation empties the buffer (other
than `remove file`) reports `True` but performs no write-back: the file on
disk keeps its original content; when the mutated buffer is non-empty it
is written back. -/
theorem C10_empty_buffer_skips_writeback :
    ∀ (disk : List Line) (c : YoreComment) (env : Env) (buf : List Line),
      applyFix disk c env = some (buf, true) →
      c.remove ≠ some ("file".data) →
      ((buf = [] → fixFile disk c env = some (some disk, true))
        ∧ (buf ≠ [] → fixFile disk c env = some (some buf, true))) := by
  intro disk c env buf happ hnf
  constructor
  · intro hempty
    rw [fixFile, happ]
    dsimp only
    rw [if_pos rfl, if_neg hnf, hempty, if_neg (by simp)]
  · intro hne
    rw [fixFile, happ]
    dsimp only
    rw [if_pos rfl, if_neg hnf, if_pos hne]

/-! ### Lemmas about the directive parser -/

theorem eatCI_take_lower :
    ∀ (p s r : Line), eatCI p s = some r →
      (s.take p.length).map Char.toLower = p.map Char.toLower := by
  intro p
  induction p with
  | nil => intro s r _; rfl
  | cons x ps ih =>
    intro s r h
    cases s with
    | nil => cases h
    | cons c cs =>
      rw [eatCI] at h
      by_cases hc : ciEq x c = true
      · rw [if_pos hc] at h
        have hcx : x.toLower = c.toLower := of_decide_eq_true hc
        rw [List.length_cons, List.take_succ_cons, List.map_cons, List.map_cons,
          ih cs r h, hcx]
      · rw [if_neg hc] at h; cases h

theorem eatKw_lower {kw s kd r : Line} (h : eatKw kw s = some (kd, r)) :
    kd.map Char.toLower = kw.map Char.toLower := by
  rw [eatKw] at h
  cases hci : eatCI kw s with
  | none => rw [hci] at h; cases h
  | some rest =>
    rw [hci] at h
    dsimp only at h
    simp only [Option.some.injEq, Prod.mk.injEq] at h
    rw [← h.1]
    exact eatCI_take_lower kw s rest hci

theorem parseAfterKind_kind :
    ∀ (n : Nat) (kd s6 : Line) (c : YoreComment),
      parseAfterKind n kd s6 = some c → c.kind = kd := by
  intro n kd s6 c h
  rw [parseAfterKind] at h
  cases h1 : eatChar ' ' s6 with
  | none => rw [h1] at h; cases h
  | some s7 =>
    rw [h1] at h
    dsimp only at h
    cases h2 : eatVersion s7 with
    | none => rw [h2] at h; cases h
    | some vr =>
      obtain ⟨ver, s8⟩ := vr
      rw [h2] at h
      dsimp only at h
      cases h3 : eatChar ' ' s8 with
      | none => rw [h3] at h; cases h
      | some s9 =>
        rw [h3] at h
        dsimp only at h
        cases h4 : parseBody s9 with
        | none => rw [h4] at h; cases h
        | some g =>
          rw [h4] at h
          dsimp only at h
          cases h
          rfl

/-- Every comment the parser yields has kind `bump` or `eol` (case
folded): the kind alternation of `COMMENT_PATTERN` has no other arm. -/
theorem parse_kind_bump_or_eol :
    ∀ (pfx : Line) (n : Nat) (l : Line) (c : YoreComment),
      parseComment pfx n l = some c →
      kindLower c = "bump".data ∨ kindLower c = "eol".data := by
  intro pfx n l c h
  rw [parseComment] at h
  cases h1 : eatChar '#' (l.dropWhile pyIsSpace) with
  | none => rw [h1] at h; cases h
  | some s1 =>
  rw [h1] at h
  dsimp only at h
  cases h2 : eatChar ' ' s1 with
  | none => rw [h2] at h; cases h
  | some s2 =>
  rw [h2] at h
  dsimp only at h
  cases h3 : eatCI pfx s2 with
  | none => rw [h3] at h; cases h
  | some s3 =>
  rw [h3] at h
  dsimp only at h
  cases h4 : eatChar ':' s3 with
  | none => rw [h4] at h; cases h
  | some s4 =>
  rw [h4] at h
  dsimp only at h
  cases h5 : eatChar ' ' s4 with
  | none => rw [h5] at h; cases h
  | some s5 =>
  rw [h5] at h
  dsimp only at h
  cases hb : eatKw "bump".data s5 with
  | some kr =>
    obtain ⟨kd, s6⟩ := kr
    rw [hb] at h
    dsimp only at h
    left
    rw [kindLower, parseAfterKind_kind n kd s6 c h, eatKw_lower hb]
    decide
  | none =>
    rw [hb] at h
    dsimp only at h
    cases he : eatKw "eol".data s5 with
    | none => rw [he] at h; cases h
    | some kr =>
      obtain ⟨kd, s6⟩ := kr
      rw [he] at h
      dsimp only at h
      right
      rw [kindLower, parseAfterKind_kind n kd s6 c h, eatKw_lower he]
      decide

/-! ### The claims about the parser (C1, C2) -/

/-- C1: the parser rejects `bol` directives. A `bol` line whose action is
grammatical yields no directive, while the identical `eol` line parses;
in general no parsed comment ever has kind `bol`, although the library's
own `YoreKind`, `is_bol`, `check` and `fix` all support it — the kind
alternation of `COMMENT_PATTERN` reads `(bump|eol)` instead of
`(bump|eol|bol)`. -/
theorem C1_bol_kind_unparsed :
    (parseComment "YORE".data 1 "# YORE: bol 3.8: remove line.".data = none)
    ∧ (parseComment "YORE".data 1 "# YORE: eol 3.8: remove line.".data
        = some { lineno := 1, kind := "eol".data, version := "3.8".data,
                 remove := some "line".data })
    ∧ (bufferComments "YORE".data ["# YORE: bol 3.8: remove line.".data] = [])
    ∧ (∀ (pfx : Line) (n : Nat) (l : Line) (c : YoreComment),
        parseComment pfx n l = some c → kindLower c ≠ "bol".data) := by
  refine ⟨by decide, by decide, by decide, ?_⟩
  intro pfx n l c h
  rcases parse_kind_bump_or_eol pfx n l c h with hk | hk <;> rw [hk] <;> decide

/-- C2 counterexample: the grammar is not whitespace-tolerant between `#`
and the prefix: the canonical directive line parses but the same line
without the space after `#` does not, contradicting the claim that both
parse to the same directive. -/
theorem C2_counterexample_no_space :
    (parseComment "YORE".data 1 "# YORE: bump 1: remove line.".data).isSome = true
    ∧ parseComment "YORE".data 1 "#YORE: bump 1: remove line.".data = none := by
  constructor <;> decide

/-- C2 (amended): only the whitespace before `#` is flexible (`^\s*`);
every other separator of the pattern is exactly one space, so a line with
no space between `#` and the prefix, or with two spaces after `YORE:`,
does not parse, while any run of leading whitespace leaves the parse
unchanged. -/
theorem C2_leading_whitespace_only :
    (∀ (pfx : Line) (n : Nat) (ws rest : Line), (∀ c ∈ ws, pyIsSpace c = true) →
        parseComment pfx n (ws ++ '#' :: rest) = parseComment pfx n ('#' :: rest))
    ∧ (parseComment "YORE".data 1 "# YORE: bump 1: remove line.".data
        = some { lineno := 1, kind := "bump".data, version := "1".data,
                 remove := some "line".data })
    ∧ parseComment "YORE".data 1 "#YORE: bump 1: remove line.".data = none
    ∧ parseComment "YORE".data 1 "# YORE:  bump 1: remove line.".data = none := by
  refine ⟨?_, by decide, by decide, by decide⟩
  intro pfx n ws rest hws
  rw [parseComment, parseComment, dropWhile_append_all hws]

/-! ### Witnesses: the hypotheses of each universally quantified claim
theorem discharged at a concrete input. -/

/-- Witness for C4 at the spec's own example: `",, ,1,, ,,,,  2 ,,"`
expands to `[1, 2]`. -/
theorem C4_witness : matchToLines ",, ,1,, ,,,,  2 ,,".data = some [1, 2] := by
  have h := C4_line_list_expansion ",, ,".data " ,,".data (LineToken.single "1".data)
    [(",, ,,,,  ".data, LineToken.single "2".data)] (by decide) (by decide) (by decide)
    (by decide)
  have hAB : (",, ,1,, ,,,,  2 ,,".data : Line)
      = ",, ,".data ++ tokenText (LineToken.single "1".data)
          ++ renderRest [(",, ,,,,  ".data, LineToken.single "2".data)] ++ " ,,".data := by
    decide
  rw [hAB, h]
  decide

/-- Witness for C5: `Replace block with line 2` on a two-line block keeps
only the block's second line, re-indented like the block's first line. -/
theorem C5_witness :
    applyFix ["# c".data, "  a".data, "  b".data]
      { lineno := 1, kind := "bump".data, version := "1".data,
        replace := some "block".data, line := some 2 }
      { today := 0, bump := some "1".data }
      = some (["  b".data], true) := by
  have h := C5_replace_with_relative_line ["# c".data, "  a".data, "  b".data]
    { lineno := 1, kind := "bump".data, version := "1".data,
      replace := some "block".data, line := some 2 }
    { today := 0, bump := some "1".data } "block".data 2 0 2
    (by decide) rfl rfl rfl (by decide) (by decide) (by decide) (by decide)
  rw [h]
  decide

/-- Witness for C6 on a concrete two-line buffer. -/
theorem C6_witness :
    applyFix ["# c".data, "code".data]
      { lineno := 1, kind := "bump".data, version := "1".data,
        remove := some "line".data }
      { today := 0, bump := some "1".data }
      = some ([], true) :=
  C6_remove_line_round_trip "# c".data "code".data
    { lineno := 1, kind := "bump".data, version := "1".data,
      remove := some "line".data }
    { today := 0, bump := some "1".data } rfl rfl (by decide)

/-- Witness for C7: a bump directive with trigger version `1` fires when
the supplied next version is `1`. -/
theorem C7_witness :
    fixCondition
      { lineno := 1, kind := "bump".data, version := "1".data,
        remove := some "line".data }
      { today := 0, bump := some "1".data }
      = some true :=
  (C7_bump_trigger
    { lineno := 1, kind := "bump".data, version := "1".data,
      remove := some "line".data }
    { today := 0, bump := some "1".data } (by decide)).1.mpr
    ⟨"1".data, rfl, by decide, [1], [1], by decide, by decide, by decide⟩

/-- Witness for C8: with no next version supplied the bump trigger is
false and the buffer comes back unchanged. -/
theorem C8_witness :
    applyFix ["a".data]
      { lineno := 1, kind := "bump".data, version := "1".data,
        remove := some "line".data }
      { today := 0 }
      = some (["a".data], false) :=
  C8_no_trigger_no_mutation ["a".data]
    { lineno := 1, kind := "bump".data, version := "1".data,
      remove := some "line".data }
    { today := 0 } (by decide)

/-- Witness for C9: removing the line below a directive found at line 2
leaves line 1 untouched. -/
theorem C9_witness :
    (["a".data] : List Line).get? 0 = (["a".data, "# c".data, "x".data] : List Line).get? 0 :=
  C9_mutation_frame ["a".data, "# c".data, "x".data]
    { lineno := 2, kind := "bump".data, version := "1".data,
      remove := some "line".data }
    { today := 0, bump := some "1".data } ["a".data] true
    (by decide) (Or.inl rfl) (by decide) (by decide) 0 (by decide)

/-- Witness for C10: a `remove block` spanning the whole remaining file
reports fixed but leaves the disk content unchanged. -/
theorem C10_witness :
    fixFile ["# c".data, "x".data]
      { lineno := 1, kind := "bump".data, version := "1".data,
        remove := some "block".data }
      { today := 0, bump := some "1".data }
      = some (some ["# c".data, "x".data], true) :=
  (C10_empty_buffer_skips_writeback ["# c".data, "x".data]
    { lineno := 1, kind := "bump".data, version := "1".data,
      remove := some "block".data }
    { today := 0, bump := some "1".data } []
    (by decide) (by decide)).1 rfl

end Yore
